import Mathlib

/-!
Verification of the proverb normalization, deduplication, query and bulk-import
logic of the maele-a-basotho repository (src/app/Proverbs_app.py and
src/upload_json_to_firestore.py).

Python strings are modelled as lists of characters (`Str`).  The Python string
operations used by the code are modelled on lists:
`str.strip()` as `stripStr`, `str.lower()` as `lowerStr` (simple per-character
lowercasing, as the spec notes no Unicode case folding is intended),
`str.split()` (no argument) as `pySplit` (split on whitespace runs, dropping
empty pieces), the substring test `k in s` as `substrB`, and `a or b` on
strings as `pyOr` (the empty string is falsy).

Store records are dictionaries in the code; fields may be absent, which is
modelled with `Option`.  `p.get(k) or ""` and `p.get(k, "")` both yield the
field when it is a string and `""` when the field is absent, which is
`Option.getD _ []` here.  The JSON-level bulk-import candidates, whose fields
may additionally be JSON null, get their own type `JVal` below.
-/

abbrev Str := List Char

def isWS (c : Char) : Bool := c.isWhitespace

/-- Python str.lower(): character-wise lowercasing. -/
def lowerStr (s : Str) : Str := s.map Char.toLower

/-- Python str.strip(): remove leading and trailing whitespace. -/
def stripStr (s : Str) : Str := ((s.dropWhile isWS).reverse.dropWhile isWS).reverse

/-- Python "s or t" for strings: the empty string is falsy. -/
def pyOr (a b : Str) : Str := if a = [] then b else a

/-- Worker for Python str.split() with no argument; `acc` holds the current
word reversed. -/
def splitWS : Str → Str → List Str
  | [], acc => if acc = [] then [] else [acc.reverse]
  | c :: cs, acc =>
    if isWS c then
      if acc = [] then splitWS cs [] else acc.reverse :: splitWS cs []
    else splitWS cs (c :: acc)

/-- Python str.split() with no argument: split on whitespace runs, dropping
empty pieces. -/
def pySplit (s : Str) : List Str := splitWS s []

/-- Python "k in s" on strings: substring containment. -/
def substrB (k s : Str) : Bool := s.tails.any (fun t => k.isPrefixOf t)

/-- The sentinel category (Proverbs_app.py line 225, upload script line 54). -/
def uncategorized : Str := "Uncategorized".toList

/-- A stored proverb document together with its store-assigned identifier.
Fields of the schemaless store may be absent (`none`). -/
structure Proverb where
  id : Nat
  text : Option Str
  meaning : Option Str
  translation : Option Str
  category : Option Str
  keywords : List Str
deriving DecidableEq

/-- The duplicate key of a stored record:
`(p.get("text") or "").strip().lower()` (Proverbs_app.py lines 215 and 248,
upload script line 35). -/
def normKey (p : Proverb) : Str := lowerStr (stripStr (p.text.getD []))

/-- The document persisted by the admin interface, built identically at
"Add Proverb" (lines 221-227) and "Save Changes" (lines 252-258): fields are
trimmed, a blank category becomes the sentinel, and keywords are the lowercase
whitespace-split of the raw submitted text. -/
def mkDoc (docId : Nat) (text meaning translation category : Str) : Proverb :=
  { id := docId
    text := some (stripStr text)
    meaning := some (stripStr meaning)
    translation := some (stripStr translation)
    category := some (pyOr (stripStr category) uncategorized)
    keywords := (pySplit text).map lowerStr }

inductive AddErr where
  | required
  | duplicate
deriving DecidableEq

/-- The "Add Proverb" handler (Proverbs_app.py lines 213-230). -/
def addProverb (proverbs : List Proverb) (newText newMeaning newTranslation newCategory : Str)
    (newId : Nat) : Except AddErr (List Proverb) :=
  if stripStr newText = [] ∨ stripStr newMeaning = [] then .error .required
  else if lowerStr (stripStr newText) ∈ proverbs.map normKey then .error .duplicate
  else .ok (proverbs ++ [mkDoc newId newText newMeaning newTranslation newCategory])

inductive EditErr where
  | duplicate
deriving DecidableEq

/-- The "Save Changes" handler (Proverbs_app.py lines 246-261): duplicate check
against all records other than the selected one, then a full overwrite of the
selected document.  There is no emptiness check on this path. -/
def saveChanges (proverbs : List Proverb) (selected : Proverb)
    (editText editMeaning editTranslation editCategory : Str) : Except EditErr (List Proverb) :=
  if lowerStr (stripStr editText) ∈
      (proverbs.filter (fun p => decide (p.id ≠ selected.id))).map normKey then
    .error .duplicate
  else .ok (proverbs.map (fun p =>
    if p.id = selected.id then
      mkDoc selected.id editText editMeaning editTranslation editCategory
    else p))

/-- A bulk-import candidate as the spec's input format describes it: optional
string fields, a missing field defaulting to the empty string. -/
structure Cand where
  text : Option Str
  meaning : Option Str
  translation : Option Str
  category : Option Str
deriving DecidableEq

/-- The candidate's trimmed text: `(p.get("text") or "").strip()`
(upload script line 42). -/
def candText (p : Cand) : Str := stripStr (p.text.getD [])

/-- A document persisted by the bulk importer (no identifier yet). -/
structure ImportDoc where
  text : Str
  meaning : Str
  translation : Str
  category : Str
  keywords : List Str
deriving DecidableEq

/-- The `data` dictionary of the upload script (lines 50-56); its keywords are
split from the already-trimmed text. -/
def mkImportData (p : Cand) : ImportDoc :=
  let text := candText p
  { text := text
    meaning := stripStr (p.meaning.getD [])
    translation := stripStr (p.translation.getD [])
    category := pyOr (stripStr (p.category.getD [])) uncategorized
    keywords := (pySplit text).map lowerStr }

/-- The import loop of the upload script (lines 39-59).  `existing` is the set
of duplicate keys of the records streamed from the store before the loop
(lines 34-37); it is never updated inside the loop.  Returns the admitted
documents in order together with `added_count`. -/
def runImport (existing : List Str) : List Cand → List ImportDoc × Nat
  | [] => ([], 0)
  | p :: ps =>
    let text := candText p
    if text = [] then runImport existing ps
    else if lowerStr text ∈ existing then runImport existing ps
    else
      let r := runImport existing ps
      (mkImportData p :: r.1, r.2 + 1)

/-- A JSON value as far as the upload script distinguishes them: a string or
null.  (Missing fields are `none` at use sites.) -/
inductive JVal where
  | str (s : Str)
  | null
deriving DecidableEq

/-- A raw JSON bulk-import candidate: each field may be missing or null. -/
structure JCand where
  text : Option JVal
  meaning : Option JVal
  translation : Option JVal
  category : Option JVal
deriving DecidableEq

/-- The null-tolerant text read `(p.get("text") or "")` (upload script
line 42): a missing field and JSON null are both falsy, as is `""`. -/
def jTextRead (v : Option JVal) : Str :=
  match v with
  | none => []
  | some .null => []
  | some (.str s) => s

/-- The read `p.get(k, "").strip()` used for meaning, translation and category
(upload script lines 52-54): a missing field defaults to `""`, but a field
that is present as JSON null becomes Python None and `None.strip()` raises
AttributeError, modelled as the error case. -/
def jGetStrip (v : Option JVal) : Except Unit Str :=
  match v with
  | none => .ok (stripStr [])
  | some .null => .error ()
  | some (.str s) => .ok (stripStr s)

/-- The `data` dictionary of the upload script (lines 50-56) built from a raw
JSON candidate; field expressions are evaluated in source order and the first
null non-text field raises. -/
def jMkData (p : JCand) : Except Unit ImportDoc :=
  match jGetStrip p.meaning with
  | .error e => .error e
  | .ok meaning =>
    match jGetStrip p.translation with
    | .error e => .error e
    | .ok translation =>
      match jGetStrip p.category with
      | .error e => .error e
      | .ok category =>
        .ok { text := stripStr (jTextRead p.text)
              meaning := meaning
              translation := translation
              category := pyOr category uncategorized
              keywords := (pySplit (stripStr (jTextRead p.text))).map lowerStr }

/-- The import loop (upload script lines 39-59) on raw JSON candidates: a
candidate with falsy or whitespace-only text is skipped before any other field
is read; building `data` can raise, which aborts the whole run. -/
def runImportJ (existing : List Str) : List JCand → Except Unit (List ImportDoc × Nat)
  | [] => .ok ([], 0)
  | p :: ps =>
    if stripStr (jTextRead p.text) = [] then runImportJ existing ps
    else if lowerStr (stripStr (jTextRead p.text)) ∈ existing then runImportJ existing ps
    else
      match jMkData p with
      | .error e => .error e
      | .ok d =>
        match runImportJ existing ps with
        | .error e => .error e
        | .ok r => .ok (d :: r.1, r.2 + 1)

/-- Keyword search (Proverbs_app.py lines 93-104). -/
def search_proverbs (proverbs : List Proverb) (keyword : Str) (search_in_meaning : Bool) :
    List Proverb :=
  if stripStr (lowerStr keyword) = [] then []
  else proverbs.filter (fun p =>
    substrB (stripStr (lowerStr keyword)) (lowerStr (p.text.getD [])) ||
      (search_in_meaning && substrB (stripStr (lowerStr keyword)) (lowerStr (p.meaning.getD []))))

/-- Boolean lexicographic comparison of strings by code point, as Python
`sorted` compares strings. -/
def lexLe : Str → Str → Bool
  | [], _ => true
  | _ :: _, [] => false
  | a :: s, b :: t => if a < b then true else if b < a then false else lexLe s t

/-- The category shown for a record in `categories_from`
(Proverbs_app.py line 108): `((p.get("category") or "Uncategorized").strip())`.
Note the sentinel substitution happens before the trim. -/
def catOf (p : Proverb) : Str := stripStr (pyOr (p.category.getD []) uncategorized)

/-- Category listing (Proverbs_app.py lines 106-109): `sorted` of the set of
displayed categories. -/
def categories_from (proverbs : List Proverb) : List Str :=
  ((proverbs.map catOf).dedup).mergeSort lexLe

/-- One write operation through the app or the upload script.  An edit carries
the text selected in the selectbox; the handler resolves it to the first
record with that text (Proverbs_app.py line 238). -/
inductive Op where
  | add (text meaning translation category : Str)
  | edit (sel text meaning translation category : Str)
  | bulkImport (batch : List Cand)

/-- A fresh identifier for a new document, modelling the store assigning an
identifier distinct from all existing ones. -/
def freshId (proverbs : List Proverb) : Nat := (proverbs.map Proverb.id).foldr max 0 + 1

/-- An imported document as stored, with its assigned identifier. -/
def importRec (i : Nat) (d : ImportDoc) : Proverb :=
  { id := i, text := some d.text, meaning := some d.meaning,
    translation := some d.translation, category := some d.category,
    keywords := d.keywords }

/-- Store-assigned identifiers for a batch of admitted import documents. -/
def assignIds (base : Nat) : List ImportDoc → List Proverb
  | [] => []
  | d :: ds => importRec base d :: assignIds (base + 1) ds

/-- Effect of one write operation on the store contents.  Rejected writes
leave the store unchanged. -/
def applyOp (proverbs : List Proverb) : Op → List Proverb
  | .add t m tr c =>
    match addProverb proverbs t m tr c (freshId proverbs) with
    | .ok s => s
    | .error _ => proverbs
  | .edit sel t m tr c =>
    match proverbs.find? (fun p => p.text.getD [] == sel) with
    | none => proverbs
    | some selected =>
      match saveChanges proverbs selected t m tr c with
      | .ok s => s
      | .error _ => proverbs
  | .bulkImport batch =>
    proverbs ++ assignIds (freshId proverbs) (runImport (proverbs.map normKey) batch).1

def applyOps (proverbs : List Proverb) : List Op → List Proverb
  | [] => proverbs
  | op :: ops => applyOps (applyOp proverbs op) ops

/-- Store well-formedness: identifiers are distinct (guaranteed by the store)
and no two records share a duplicate key. -/
abbrev StoreOk (proverbs : List Proverb) : Prop :=
  (proverbs.map Proverb.id).Nodup ∧ (proverbs.map normKey).Nodup

/-- A batch with no two candidates of nonempty trimmed text sharing the same
duplicate key. -/
abbrev BatchOk (ps : List Cand) : Prop :=
  ((ps.filter (fun p => decide (candText p ≠ []))).map (fun p => lowerStr (candText p))).Nodup

/-- Precondition on an operation: import batches contain no within-batch
duplicate keys; admin operations are unrestricted. -/
abbrev OpOk : Op → Prop
  | .bulkImport ps => BatchOk ps
  | _ => True

/-- Sample batch for C1: two candidates whose texts differ only in case. -/
def impBatchDup : List Cand :=
  [⟨some ("A".toList), none, none, none⟩, ⟨some ("a".toList), none, none, none⟩]

/-- The import batch of the C3 scenario. -/
def c3Batch : List Cand :=
  [⟨some ("Khomo ke thota".toList), none, none, none⟩,
   ⟨some ("".toList), none, none, none⟩,
   ⟨some ("khomo ke thota".toList), none, none, none⟩]

/-- Sample one-record store for the edit-path counterexample. -/
def storeA : List Proverb :=
  [⟨0, some ("a".toList), some ("m".toList), some [], some ("c".toList), [("a".toList)]⟩]

/-- Sample record for the keyword-search counterexample. -/
def recTau : Proverb := ⟨0, some ("tau".toList), some [], none, none, [("tau".toList)]⟩

/-- Sample record with a whitespace-only category. -/
def recWSCat : Proverb := ⟨0, none, none, none, some ("  ".toList), []⟩

/-- A batch without within-batch duplicates, for the amended-C1 witness. -/
def goodBatch : List Cand := [⟨some ("B".toList), some ("bm".toList), none, none⟩]

/-- A sequence of operations exercising all three write paths, for the
amended-C1 witness. -/
def sampleOps : List Op :=
  [Op.add ("Khomo".toList) ("m".toList) [] [],
   Op.edit ("Khomo".toList) ("Tau".toList) ("m2".toList) [] [],
   Op.bulkImport goodBatch]

/-- First record of the two-record store for the C9 witness. -/
def recB0 : Proverb :=
  ⟨0, some ("a".toList), some ("m".toList), some [], some ("c".toList), [("a".toList)]⟩

/-- Second record of the two-record store for the C9 witness. -/
def recB1 : Proverb :=
  ⟨1, some ("b".toList), some ("n".toList), some [], some ("c".toList), [("b".toList)]⟩

/-- Two-record store for the C9 witness. -/
def storeB : List Proverb := [recB0, recB1]

/-! ## Helper lemmas about the string model -/

theorem isWS_toLower (c : Char) : isWS (Char.toLower c) = isWS c := by
  unfold isWS
  by_cases hw : c.isWhitespace = true
  · have hc : c = ' ' ∨ c = '\t' ∨ c = '\x0d' ∨ c = '\n' := by
      simp only [Char.isWhitespace, Bool.or_eq_true, decide_eq_true_eq] at hw
      tauto
    rcases hc with h | h | h | h <;> subst h <;> decide
  · simp only [Bool.not_eq_true] at hw
    rw [hw]
    simp only [Char.toLower]
    split
    · rename_i h
      obtain ⟨h1, h2⟩ := h
      have hv : (c.toNat + 32).isValidChar := Or.inl (by omega)
      have hval : (Char.ofNat (c.toNat + 32)).toNat = c.toNat + 32 := by
        simp only [Char.ofNat]
        split
        · rfl
        · rename_i hnv
          exact absurd hv hnv
      have key : ∀ d : Char, Char.ofNat (c.toNat + 32) = d → d.toNat = c.toNat + 32 := by
        intro d he
        rw [← he]
        exact hval
      simp only [Char.isWhitespace, Bool.or_eq_false_iff, decide_eq_false_iff_not]
      have h32 : (' ' : Char).toNat = 32 := rfl
      have h9 : ('\t' : Char).toNat = 9 := rfl
      have h13 : ('\x0d' : Char).toNat = 13 := rfl
      have h10 : ('\n' : Char).toNat = 10 := rfl
      refine ⟨⟨⟨?_, ?_⟩, ?_⟩, ?_⟩ <;> intro he <;> have hk := key _ he
      · rw [h32] at hk; omega
      · rw [h9] at hk; omega
      · rw [h13] at hk; omega
      · rw [h10] at hk; omega
    · exact hw

theorem dropWhile_isWS_idem (l : Str) :
    (l.dropWhile isWS).dropWhile isWS = l.dropWhile isWS := by
  induction l with
  | nil => rfl
  | cons a l ih =>
    by_cases h : isWS a = true
    · simp [List.dropWhile_cons, h, ih]
    · simp only [Bool.not_eq_true] at h
      simp [List.dropWhile_cons, h]

theorem dropWhile_isWS_self (l : Str) (h : ∀ c, l.head? = some c → isWS c = false) :
    l.dropWhile isWS = l := by
  cases l with
  | nil => rfl
  | cons a l => simp [List.dropWhile_cons, h a rfl]

theorem head?_dropWhile_not_isWS (l : Str) :
    ∀ c, (l.dropWhile isWS).head? = some c → isWS c = false := by
  induction l with
  | nil => intro c hc; exact Option.noConfusion hc
  | cons a l ih =>
    intro c hc
    by_cases h : isWS a = true
    · rw [List.dropWhile_cons, if_pos h] at hc
      exact ih c hc
    · rw [List.dropWhile_cons, if_neg (by simp [h])] at hc
      simp only [List.head?_cons, Option.some_inj] at hc
      subst hc
      simpa using h

theorem getLast?_dropWhile_isWS (l : Str) (h : l.dropWhile isWS ≠ []) :
    (l.dropWhile isWS).getLast? = l.getLast? := by
  conv_rhs => rw [← List.takeWhile_append_dropWhile isWS l]
  rw [List.getLast?_append]
  cases hB : (l.dropWhile isWS).getLast? with
  | none => exact absurd (by simpa using hB) h
  | some x => rfl

theorem stripStr_idem (s : Str) : stripStr (stripStr s) = stripStr s := by
  have hTB : ((s.dropWhile isWS).reverse.dropWhile isWS).dropWhile isWS
      = (s.dropWhile isWS).reverse.dropWhile isWS := dropWhile_isWS_idem _
  have h1 : (stripStr s).dropWhile isWS = stripStr s := by
    apply dropWhile_isWS_self
    intro c hc
    unfold stripStr at hc
    rw [List.head?_reverse] at hc
    have hBne : (s.dropWhile isWS).reverse.dropWhile isWS ≠ [] := by
      intro he
      rw [he] at hc
      exact Option.noConfusion hc
    rw [getLast?_dropWhile_isWS _ hBne, List.getLast?_reverse] at hc
    exact head?_dropWhile_not_isWS s c hc
  show (((stripStr s).dropWhile isWS).reverse.dropWhile isWS).reverse = stripStr s
  rw [h1]
  unfold stripStr
  rw [List.reverse_reverse, hTB]

theorem splitWS_all_ws : ∀ (w : Str), (∀ c ∈ w, isWS c = true) → ∀ (acc : Str),
    splitWS w acc = if acc = [] then [] else [acc.reverse] := by
  intro w
  induction w with
  | nil => intro _ acc; rfl
  | cons c w ih =>
    intro hw acc
    have hc : isWS c = true := hw c (List.mem_cons_self c w)
    have ih2 := ih (fun d hd => hw d (List.mem_cons_of_mem c hd))
    by_cases ha : acc = [] <;> simp [splitWS, hc, ha, ih2]

theorem splitWS_append_ws (w : Str) (hw : ∀ c ∈ w, isWS c = true) :
    ∀ (t acc : Str), splitWS (t ++ w) acc = splitWS t acc := by
  intro t
  induction t with
  | nil =>
    intro acc
    rw [List.nil_append, splitWS_all_ws w hw acc]
    rfl
  | cons c t ih =>
    intro acc
    by_cases hc : isWS c = true
    · by_cases ha : acc = [] <;> simp [splitWS, hc, ha, ih]
    · simp only [Bool.not_eq_true] at hc
      simp [splitWS, hc, ih]

theorem splitWS_drop_leading_ws : ∀ (w : Str), (∀ c ∈ w, isWS c = true) → ∀ (t : Str),
    splitWS (w ++ t) [] = splitWS t [] := by
  intro w
  induction w with
  | nil => intro _ t; rfl
  | cons c w ih =>
    intro hw t
    have hc : isWS c = true := hw c (List.mem_cons_self c w)
    simp only [List.cons_append, splitWS, hc, if_pos rfl, if_true]
    exact ih (fun d hd => hw d (List.mem_cons_of_mem c hd)) t

theorem pySplit_stripStr (s : Str) : pySplit (stripStr s) = pySplit s := by
  unfold pySplit
  conv_rhs => rw [← List.takeWhile_append_dropWhile isWS s]
  rw [splitWS_drop_leading_ws _ (fun c hc => List.mem_takeWhile_imp hc) _]
  have hdecomp : s.dropWhile isWS =
      ((s.dropWhile isWS).reverse.dropWhile isWS).reverse ++
        ((s.dropWhile isWS).reverse.takeWhile isWS).reverse := by
    rw [← List.reverse_append, List.takeWhile_append_dropWhile, List.reverse_reverse]
  have hw : ∀ c ∈ ((s.dropWhile isWS).reverse.takeWhile isWS).reverse, isWS c = true := by
    intro c hc
    rw [List.mem_reverse] at hc
    exact List.mem_takeWhile_imp hc
  conv_rhs => rw [hdecomp]
  rw [splitWS_append_ws _ hw]
  rfl

theorem lowerStr_stripStr (s : Str) : stripStr (lowerStr s) = lowerStr (stripStr s) := by
  unfold stripStr lowerStr
  have hps : (isWS ∘ Char.toLower) = isWS := funext fun c => isWS_toLower c
  rw [List.dropWhile_map, hps, ← List.map_reverse, List.dropWhile_map, hps, ← List.map_reverse]

theorem stripStr_lowerStr_eq_nil (s : Str) : stripStr (lowerStr s) = [] ↔ stripStr s = [] := by
  rw [lowerStr_stripStr]
  unfold lowerStr
  simp

theorem substrB_iff (k s : Str) : substrB k s = true ↔ k <:+: s := by
  unfold substrB
  rw [List.any_eq_true]
  constructor
  · rintro ⟨t, ht, hp⟩
    rw [List.mem_tails] at ht
    rw [ List.isPrefixOf_iff_prefix] at hp
    exact List.infix_iff_prefix_suffix.mpr ⟨t, hp, ht⟩
  · intro h
    obtain ⟨t, hp, ht⟩ := List.infix_iff_prefix_suffix.mp h
    exact ⟨t, (List.mem_tails _ _).mpr ht, List.isPrefixOf_iff_prefix.mpr hp⟩

theorem le_foldr_max (l : List Nat) : ∀ x ∈ l, x ≤ l.foldr max 0 := by
  induction l with
  | nil => intro x hx; cases hx
  | cons a l ih =>
    intro x hx
    rcases List.mem_cons.mp hx with h | h
    · subst h; exact le_max_left _ _
    · exact le_trans (ih x h) (le_max_right _ _)

theorem freshId_not_mem (proverbs : List Proverb) :
    freshId proverbs ∉ proverbs.map Proverb.id := by
  intro h
  have h2 := le_foldr_max _ _ h
  unfold freshId at h2
  omega

theorem stripStr_candText (p : Cand) : stripStr (candText p) = candText p := by
  unfold candText
  exact stripStr_idem _

theorem normKey_mkDoc (i : Nat) (t m tr c : Str) :
    normKey (mkDoc i t m tr c) = lowerStr (stripStr t) := by
  show lowerStr (stripStr (stripStr t)) = lowerStr (stripStr t)
  rw [stripStr_idem]

theorem normKey_importRec (i : Nat) (d : ImportDoc) :
    normKey (importRec i d) = lowerStr (stripStr d.text) := rfl

theorem runImport_eq (existing : List Str) (ps : List Cand) :
    runImport existing ps =
      (((ps.filter (fun p =>
          decide (candText p ≠ [] ∧ lowerStr (candText p) ∉ existing))).map mkImportData),
       (ps.filter (fun p =>
          decide (candText p ≠ [] ∧ lowerStr (candText p) ∉ existing))).length) := by
  induction ps with
  | nil => rfl
  | cons p ps ih =>
    by_cases h1 : candText p = []
    · simp [runImport, List.filter_cons, h1, ih]
    · by_cases h2 : lowerStr (candText p) ∈ existing
      · simp [runImport, List.filter_cons, h1, h2, ih]
      · simp [runImport, List.filter_cons, h1, h2, ih]

theorem assignIds_map_id (ds : List ImportDoc) : ∀ base,
    (assignIds base ds).map Proverb.id = List.range' base ds.length := by
  induction ds with
  | nil => intro base; rfl
  | cons d ds ih =>
    intro base
    simp only [assignIds, List.map_cons, List.length_cons, List.range'_succ, ih]
    rfl

theorem assignIds_map_normKey (ds : List ImportDoc) : ∀ base,
    (assignIds base ds).map normKey = ds.map (fun d => lowerStr (stripStr d.text)) := by
  induction ds with
  | nil => intro base; rfl
  | cons d ds ih =>
    intro base
    simp only [assignIds, List.map_cons, ih]
    rfl

theorem mem_assignIds (ds : List ImportDoc) : ∀ base r, r ∈ assignIds base ds →
    ∃ i d, d ∈ ds ∧ r = importRec i d := by
  induction ds with
  | nil => intro base r hr; cases hr
  | cons d ds ih =>
    intro base r hr
    rcases List.mem_cons.mp hr with h | h
    · exact ⟨base, d, List.mem_cons_self d ds, h⟩
    · obtain ⟨i, e, he, hr2⟩ := ih (base + 1) r h
      exact ⟨i, e, List.mem_cons_of_mem d he, hr2⟩

theorem lexLe_total : ∀ a b : Str, (lexLe a b || lexLe b a) = true := by
  intro a
  induction a with
  | nil => intro b; simp [lexLe]
  | cons x s ih =>
    intro b
    cases b with
    | nil => simp [lexLe]
    | cons y t =>
      by_cases h1 : x < y
      · simp [lexLe, h1]
      · by_cases h2 : y < x
        · simp [lexLe, h1, h2]
        · have hxy : x = y := le_antisymm (not_lt.mp h2) (not_lt.mp h1)
          subst hxy
          simpa [lexLe, h1, h2] using ih t

theorem lexLe_trans : ∀ a b c : Str, lexLe a b = true → lexLe b c = true →
    lexLe a c = true := by
  intro a
  induction a with
  | nil => intro b c _ _; rfl
  | cons x s ih =>
    intro b c hab hbc
    cases b with
    | nil => simp [lexLe] at hab
    | cons y t =>
      cases c with
      | nil => simp [lexLe] at hbc
      | cons z u =>
        by_cases hxy : x < y
        · by_cases hyz : y < z
          · simp [lexLe, lt_trans hxy hyz]
          · by_cases hzy : z < y
            · simp [lexLe, hxy, hyz, hzy] at hbc
            · have : y = z := le_antisymm (not_lt.mp hzy) (not_lt.mp hyz)
              subst this
              simp [lexLe, hxy]
        · by_cases hyx : y < x
          · simp [lexLe, hxy, hyx] at hab
          · have hxy2 : x = y := le_antisymm (not_lt.mp hyx) (not_lt.mp hxy)
            subst hxy2
            simp only [lexLe, if_neg hxy, if_neg hyx] at hab
            by_cases hyz : x < z
            · simp [lexLe, hyz]
            · by_cases hzy : z < x
              · simp [lexLe, hyz, hzy] at hbc
              · have : x = z := le_antisymm (not_lt.mp hzy) (not_lt.mp hyz)
                subst this
                simp only [lexLe, if_neg hyz, if_neg hzy] at hbc ⊢
                exact ih t u hab hbc

theorem map_eq_self_of {α : Type} (l : List α) (f : α → α) (h : ∀ a ∈ l, f a = a) :
    l.map f = l := by
  induction l with
  | nil => rfl
  | cons a l ih =>
    rw [List.map_cons, h a (List.mem_cons_self a l),
      ih (fun b hb => h b (List.mem_cons_of_mem a hb))]

theorem map_replace_id (s : List Proverb) (selId : Nat) (newRec : Proverb)
    (hnew : newRec.id = selId) :
    (s.map (fun p => if p.id = selId then newRec else p)).map Proverb.id =
      s.map Proverb.id := by
  rw [List.map_map]
  apply List.map_congr_left
  intro p _
  by_cases h : p.id = selId
  · simp [h, hnew]
  · simp [h]

theorem nodup_normKey_replace : ∀ (s : List Proverb) (selId : Nat) (newRec : Proverb),
    (s.map Proverb.id).Nodup → (s.map normKey).Nodup →
    normKey newRec ∉ (s.filter (fun p => decide (p.id ≠ selId))).map normKey →
    ((s.map (fun p => if p.id = selId then newRec else p)).map normKey).Nodup := by
  intro s
  induction s with
  | nil => intro selId newRec _ _ _; simp
  | cons a s ih =>
    intro selId newRec hid hkey hnew
    rw [List.map_cons, List.nodup_cons] at hid
    rw [List.map_cons, List.nodup_cons] at hkey
    obtain ⟨hid1, hid2⟩ := hid
    obtain ⟨hkey1, hkey2⟩ := hkey
    by_cases ha : a.id = selId
    · have hrest : ∀ p ∈ s, p.id ≠ selId := by
        intro p hp he
        apply hid1
        rw [ha, ← he]
        exact List.mem_map_of_mem Proverb.id hp
      have hmap : s.map (fun p => if p.id = selId then newRec else p) = s :=
        map_eq_self_of _ _ (fun p hp => if_neg (hrest p hp))
      have hfil : (a :: s).filter (fun p => decide (p.id ≠ selId)) = s := by
        rw [List.filter_cons, if_neg (by simp [ha])]
        rw [List.filter_eq_self]
        intro p hp
        simpa using hrest p hp
      rw [hfil] at hnew
      rw [List.map_cons, if_pos ha, hmap, List.map_cons, List.nodup_cons]
      exact ⟨hnew, hkey2⟩
    · have hfil : (a :: s).filter (fun p => decide (p.id ≠ selId)) =
          a :: s.filter (fun p => decide (p.id ≠ selId)) := by
        rw [List.filter_cons, if_pos (by simpa using ha)]
      rw [hfil, List.map_cons, List.mem_cons, not_or] at hnew
      obtain ⟨hn1, hn2⟩ := hnew
      rw [List.map_cons, if_neg ha, List.map_cons, List.nodup_cons]
      refine ⟨?_, ih selId newRec hid2 hkey2 hn2⟩
      intro hmem
      rw [List.map_map, List.mem_map] at hmem
      obtain ⟨p, hp, hpq⟩ := hmem
      simp only [Function.comp] at hpq
      by_cases hpid : p.id = selId
      · rw [if_pos hpid] at hpq
        exact hn1 hpq
      · rw [if_neg hpid] at hpq
        apply hkey1
        rw [← hpq]
        exact List.mem_map_of_mem normKey hp

theorem storeOk_addProverb (s : List Proverb) (t m tr c : Str) (i : Nat)
    (s2 : List Proverb) (hi : i ∉ s.map Proverb.id) (hs : StoreOk s)
    (hok : addProverb s t m tr c i = .ok s2) : StoreOk s2 := by
  obtain ⟨hid, hkey⟩ := hs
  unfold addProverb at hok
  by_cases h1 : stripStr t = [] ∨ stripStr m = []
  · rw [if_pos h1] at hok
    exact Except.noConfusion hok
  · rw [if_neg h1] at hok
    by_cases h2 : lowerStr (stripStr t) ∈ s.map normKey
    · rw [if_pos h2] at hok
      exact Except.noConfusion hok
    · rw [if_neg h2, Except.ok.injEq] at hok
      subst hok
      constructor
      · rw [List.map_append, List.nodup_append]
        refine ⟨hid, List.nodup_singleton _, ?_⟩
        intro x hx hx2
        rw [List.map_singleton, List.mem_singleton] at hx2
        subst hx2
        exact hi hx
      · rw [List.map_append, List.nodup_append]
        refine ⟨hkey, List.nodup_singleton _, ?_⟩
        intro x hx hx2
        rw [List.map_singleton, List.mem_singleton, normKey_mkDoc] at hx2
        subst hx2
        exact h2 hx

theorem storeOk_saveChanges (s : List Proverb) (selected : Proverb) (t m tr c : Str)
    (s2 : List Proverb) (hs : StoreOk s)
    (hok : saveChanges s selected t m tr c = .ok s2) : StoreOk s2 := by
  obtain ⟨hid, hkey⟩ := hs
  unfold saveChanges at hok
  by_cases h : lowerStr (stripStr t) ∈
      (s.filter (fun p => decide (p.id ≠ selected.id))).map normKey
  · rw [if_pos h] at hok
    exact Except.noConfusion hok
  · rw [if_neg h, Except.ok.injEq] at hok
    subst hok
    constructor
    · rw [map_replace_id s selected.id (mkDoc selected.id t m tr c) rfl]
      exact hid
    · apply nodup_normKey_replace s selected.id _ hid hkey
      rw [normKey_mkDoc]
      exact h

theorem storeOk_import (s : List Proverb) (batch : List Cand) (hs : StoreOk s)
    (hb : BatchOk batch) :
    StoreOk (s ++ assignIds (freshId s) (runImport (s.map normKey) batch).1) := by
  obtain ⟨hid, hkey⟩ := hs
  have hdocs : (runImport (s.map normKey) batch).1 =
      (batch.filter (fun p =>
        decide (candText p ≠ [] ∧ lowerStr (candText p) ∉ s.map normKey))).map
          mkImportData := by
    rw [runImport_eq]
  have hfun : ((fun d : ImportDoc => lowerStr (stripStr d.text)) ∘ mkImportData) =
      (fun p : Cand => lowerStr (candText p)) := by
    funext p
    show lowerStr (stripStr (mkImportData p).text) = lowerStr (candText p)
    have htext : (mkImportData p).text = candText p := rfl
    rw [htext, stripStr_candText]
  have hff : batch.filter (fun p =>
        decide (candText p ≠ [] ∧ lowerStr (candText p) ∉ s.map normKey)) =
      (batch.filter (fun p => decide (candText p ≠ []))).filter
        (fun p => decide (lowerStr (candText p) ∉ s.map normKey)) := by
    rw [List.filter_filter]
    apply List.filter_congr
    intro p _
    rw [Bool.decide_and, Bool.and_comm]
  constructor
  · rw [List.map_append, List.nodup_append, assignIds_map_id]
    refine ⟨hid, List.nodup_range' _ _ _, ?_⟩
    intro x hx hx2
    rw [List.mem_range'] at hx2
    obtain ⟨j, _, hj⟩ := hx2
    have hle := le_foldr_max _ _ hx
    unfold freshId at hj
    omega
  · rw [List.map_append, List.nodup_append, assignIds_map_normKey, hdocs,
      List.map_map, hfun]
    refine ⟨hkey, ?_, ?_⟩
    · rw [hff]
      exact List.Nodup.sublist
        (List.Sublist.map _ (List.filter_sublist _)) hb
    · intro k hk hk2
      rw [List.mem_map] at hk2
      obtain ⟨p, hp, hkp⟩ := hk2
      rw [List.mem_filter] at hp
      obtain ⟨-, hp2⟩ := hp
      rw [decide_eq_true_eq] at hp2
      exact hp2.2 (hkp ▸ hk)

theorem storeOk_applyOp (s : List Proverb) (op : Op) (hs : StoreOk s) (hop : OpOk op) :
    StoreOk (applyOp s op) := by
  cases op with
  | add t m tr c =>
    simp only [applyOp]
    cases hadd : addProverb s t m tr c (freshId s) with
    | error e => exact hs
    | ok s2 => exact storeOk_addProverb s t m tr c _ s2 (freshId_not_mem s) hs hadd
  | edit sel t m tr c =>
    simp only [applyOp]
    cases hfind : s.find? (fun p => p.text.getD [] == sel) with
    | none => exact hs
    | some selected =>
      show StoreOk (match saveChanges s selected t m tr c with
        | .ok s2 => s2
        | .error _ => s)
      cases hsave : saveChanges s selected t m tr c with
      | error e => exact hs
      | ok s2 => exact storeOk_saveChanges s selected t m tr c s2 hs hsave
  | bulkImport batch =>
    simp only [applyOp]
    exact storeOk_import s batch hs hop

theorem substrB_eq_decide (k s : Str) : substrB k s = decide (k <:+: s) := by
  by_cases h : k <:+: s
  · rw [(substrB_iff k s).mpr h, decide_eq_true h]
  · cases hb : substrB k s with
    | true => exact absurd ((substrB_iff k s).mp hb) h
    | false => rw [decide_eq_false h]

theorem mem_addProverb (s : List Proverb) (t m tr c : Str) (i : Nat) (s2 : List Proverb)
    (hok : addProverb s t m tr c i = .ok s2) (r : Proverb) (hr : r ∈ s2) :
    r ∈ s ∨ r = mkDoc i t m tr c := by
  unfold addProverb at hok
  split_ifs at hok
  rw [Except.ok.injEq] at hok
  subst hok
  rcases List.mem_append.mp hr with h | h
  · exact Or.inl h
  · exact Or.inr (List.mem_singleton.mp h)

theorem mem_saveChanges (s : List Proverb) (selected : Proverb) (t m tr c : Str)
    (s2 : List Proverb) (hok : saveChanges s selected t m tr c = .ok s2)
    (r : Proverb) (hr : r ∈ s2) :
    r ∈ s ∨ r = mkDoc selected.id t m tr c := by
  unfold saveChanges at hok
  split_ifs at hok
  rw [Except.ok.injEq] at hok
  subst hok
  rw [List.mem_map] at hr
  obtain ⟨p, hp, hpr⟩ := hr
  by_cases hid : p.id = selected.id
  · rw [if_pos hid] at hpr
    exact Or.inr hpr.symm
  · rw [if_neg hid] at hpr
    subst hpr
    exact Or.inl hp

theorem keywords_mkDoc (i : Nat) (t m tr c : Str) :
    (mkDoc i t m tr c).keywords =
      (pySplit ((mkDoc i t m tr c).text.getD [])).map lowerStr := by
  show (pySplit t).map lowerStr = (pySplit (stripStr t)).map lowerStr
  rw [pySplit_stripStr]

/-! ## Claim theorems -/

/-- Claim C2 (confirmed): for every candidate batch and every existing record
set, the bulk importer admits exactly those candidates whose text is non-empty
after trimming and whose trimmed-lowercased text does not occur among the
trimmed-lowercased texts of the pre-loop existing set, and the reported count
equals the number of admitted candidates.  In particular admission of a
candidate does not depend on earlier candidates of the batch, so a later
candidate duplicating only an earlier one is admitted, and empty-text
candidates are silently dropped from the result. -/
theorem C2_import_admission (store : List Proverb) (ps : List Cand) :
    runImport (store.map normKey) ps =
      (((ps.filter (fun p =>
          decide (candText p ≠ [] ∧ lowerStr (candText p) ∉ store.map normKey))).map
            mkImportData),
       (ps.filter (fun p =>
          decide (candText p ≠ [] ∧ lowerStr (candText p) ∉ store.map normKey))).length) :=
  runImport_eq (store.map normKey) ps

/-- Claim C3 (corrected, counterexample): on the scenario batch against an
empty existing store the importer admits 2 records, not 1 as the claim
states. -/
theorem C3_counterexample :
    (runImport (([] : List Proverb).map normKey) c3Batch).2 = 2 ∧
      (runImport (([] : List Proverb).map normKey) c3Batch).2 ≠ 1 := by
  constructor
  · decide
  · decide

/-- Claim C3 (amended): running the bulk importer on the scenario batch
against an empty existing record set admits exactly 2 records: the second
candidate is skipped for empty text, and the third is admitted even though it
duplicates the first, because the duplicate check consults only the pre-loop
snapshot of existing records. -/
theorem C3_amended :
    (runImport (([] : List Proverb).map normKey) c3Batch).1.map ImportDoc.text =
        [("Khomo ke thota".toList), ("khomo ke thota".toList)] ∧
      (runImport (([] : List Proverb).map normKey) c3Batch).2 = 2 := by
  constructor
  · decide
  · decide

/-- Claim C4 (corrected, counterexample): an edit-form submission whose text
and meaning are empty after trimming is persisted, not rejected; after the
edit the store holds a record with empty trimmed text and empty trimmed
meaning. -/
theorem C4_counterexample :
    (applyOp storeA (Op.edit ("a".toList) [] [] [] [])).map
        (fun p => (stripStr (p.text.getD []), stripStr (p.meaning.getD []))) =
      [([], [])] := by
  decide

/-- Claim C4 (amended): every add-form submission whose text is empty after
trimming or whose meaning is empty after trimming is rejected with the
required-fields error and nothing is persisted; the edit form performs no such
emptiness check. -/
theorem C4_amended (proverbs : List Proverb) (t m tr c : Str) (i : Nat)
    (h : stripStr t = [] ∨ stripStr m = []) :
    addProverb proverbs t m tr c i = .error .required := by
  unfold addProverb
  rw [if_pos h]

theorem C4_amended_witness :
    (stripStr ((" ".toList) : Str) = [] ∨ stripStr (("m".toList) : Str) = []) ∧
      addProverb [] (" ".toList) ("m".toList) [] [] 1 = .error .required :=
  ⟨Or.inl (by decide), C4_amended [] (" ".toList) ("m".toList) [] [] 1 (Or.inl (by decide))⟩

/-- Claim C7 (confirmed): on every create and update, the stored category is
the sentinel when the submitted category trims to empty and the trimmed value
otherwise, and it is never the empty string.  `mkDoc` is the document built by
both the admin add and the admin edit path, `mkImportData` the one built by
the bulk importer. -/
theorem C7_category (i : Nat) (t m tr c : Str) (p : Cand) :
    ((mkDoc i t m tr c).category =
        some (if stripStr c = [] then uncategorized else stripStr c) ∧
      (mkDoc i t m tr c).category ≠ some []) ∧
    ((mkImportData p).category =
        (if stripStr (p.category.getD []) = [] then uncategorized
          else stripStr (p.category.getD [])) ∧
      (mkImportData p).category ≠ []) := by
  have huncat : uncategorized ≠ [] := by decide
  constructor
  · constructor
    · rfl
    · show some (pyOr (stripStr c) uncategorized) ≠ some []
      unfold pyOr
      split
      · simp [huncat]
      · rename_i hc
        simp [hc]
  · constructor
    · rfl
    · show pyOr (stripStr (p.category.getD [])) uncategorized ≠ []
      unfold pyOr
      split
      · exact huncat
      · rename_i hc
        exact hc

theorem jGetStrip_ok (v : Option JVal) (h : v ≠ some JVal.null) :
    jGetStrip v = .ok (stripStr (jTextRead v)) := by
  match v with
  | none => rfl
  | some (.str s) => rfl
  | some .null => exact absurd rfl h

/-- Claim C5 (confirmed): every record present after a write operation either
was already in the store or has keywords equal to the lowercase
whitespace-split tokenization of its stored (trimmed) text; in particular
every record persisted by admin add, admin edit or the bulk importer
satisfies the keywords invariant, whatever whitespace the submitted text
carried. -/
theorem C5_keywords (s : List Proverb) (op : Op) (r : Proverb)
    (hr : r ∈ applyOp s op) :
    r ∈ s ∨ r.keywords = (pySplit (r.text.getD [])).map lowerStr := by
  cases op with
  | add t m tr c =>
    simp only [applyOp] at hr
    cases hadd : addProverb s t m tr c (freshId s) with
    | error e => rw [hadd] at hr; exact Or.inl hr
    | ok s2 =>
      rw [hadd] at hr
      rcases mem_addProverb s t m tr c (freshId s) s2 hadd r hr with h | h
      · exact Or.inl h
      · subst h; exact Or.inr (keywords_mkDoc _ _ _ _ _)
  | edit sel t m tr c =>
    simp only [applyOp] at hr
    cases hfind : s.find? (fun p => p.text.getD [] == sel) with
    | none => rw [hfind] at hr; exact Or.inl hr
    | some selected =>
      rw [hfind] at hr
      have hr2 : r ∈ (match saveChanges s selected t m tr c with
        | .ok s2 => s2
        | .error _ => s) := hr
      cases hsave : saveChanges s selected t m tr c with
      | error e => rw [hsave] at hr2; exact Or.inl hr2
      | ok s2 =>
        rw [hsave] at hr2
        rcases mem_saveChanges s selected t m tr c s2 hsave r hr2 with h | h
        · exact Or.inl h
        · subst h; exact Or.inr (keywords_mkDoc _ _ _ _ _)
  | bulkImport batch =>
    simp only [applyOp] at hr
    rcases List.mem_append.mp hr with h | h
    · exact Or.inl h
    · obtain ⟨i, d, hd, hrd⟩ := mem_assignIds _ _ _ h
      rw [runImport_eq, List.mem_map] at hd
      obtain ⟨p, hp, hpd⟩ := hd
      subst hpd
      subst hrd
      exact Or.inr rfl

theorem C5_keywords_witness :
    mkDoc 1 ("A".toList) ("b".toList) [] [] ∈
        applyOp [] (Op.add ("A".toList) ("b".toList) [] []) ∧
      (mkDoc 1 ("A".toList) ("b".toList) [] [] ∈ ([] : List Proverb) ∨
        (mkDoc 1 ("A".toList) ("b".toList) [] []).keywords =
          (pySplit ((mkDoc 1 ("A".toList) ("b".toList) [] []).text.getD [])).map lowerStr) :=
  ⟨by decide, C5_keywords [] (Op.add ("A".toList) ("b".toList) [] []) _ (by decide)⟩

/-- Claim C6 (corrected, counterexample): with keyword " tau " the search
returns the record with text "tau" although the lowercased keyword is not a
substring of the lowercased text, because the code strips the keyword before
matching. -/
theorem C6_counterexample :
    search_proverbs [recTau] (" tau ".toList) false = [recTau] ∧
      ¬ (lowerStr (" tau ".toList) <:+: lowerStr (recTau.text.getD [])) := by
  constructor
  · decide
  · decide

/-- Claim C6 (amended): keyword search returns the empty list when the
keyword is empty or whitespace-only, and otherwise returns exactly the
records whose lowercased text contains the trimmed lowercased keyword as a
substring or, when the flag is set, whose lowercased meaning contains it;
the filter preserves the records' original relative order. -/
theorem C6_amended (proverbs : List Proverb) (keyword : Str) (flag : Bool) :
    (stripStr keyword = [] → search_proverbs proverbs keyword flag = []) ∧
    (stripStr keyword ≠ [] → search_proverbs proverbs keyword flag =
      proverbs.filter (fun p =>
        decide (stripStr (lowerStr keyword) <:+: lowerStr (p.text.getD [])) ||
          (flag && decide (stripStr (lowerStr keyword) <:+:
            lowerStr (p.meaning.getD []))))) := by
  have hnil := stripStr_lowerStr_eq_nil keyword
  constructor
  · intro h
    unfold search_proverbs
    rw [if_pos (hnil.mpr h)]
  · intro h
    unfold search_proverbs
    rw [if_neg (fun hc => h (hnil.mp hc))]
    apply List.filter_congr
    intro p _
    rw [substrB_eq_decide, substrB_eq_decide]

theorem C6_amended_witness :
    search_proverbs [recTau] ("  ".toList) true = [] ∧
      search_proverbs [recTau] (" tau ".toList) true =
        [recTau].filter (fun p =>
          decide (stripStr (lowerStr (" tau ".toList)) <:+: lowerStr (p.text.getD [])) ||
            (true && decide (stripStr (lowerStr (" tau ".toList)) <:+:
              lowerStr (p.meaning.getD [])))) :=
  ⟨(C6_amended [recTau] ("  ".toList) true).1 (by decide),
   (C6_amended [recTau] (" tau ".toList) true).2 (by decide)⟩

/-- Claim C8 (corrected, counterexample): a record whose category is
whitespace-only is listed as the empty string, not as the sentinel, because
the code substitutes the sentinel before trimming, so only a missing or empty
category becomes the sentinel. -/
theorem C8_counterexample :
    categories_from [recWSCat] = [([] : Str)] ∧
      uncategorized ∉ categories_from [recWSCat] := by
  have hone : categories_from [recWSCat] = [([] : Str)] := by
    have h1 : (([recWSCat]).map catOf).dedup = [([] : Str)] := by decide
    unfold categories_from
    rw [h1]
    have hperm := List.mergeSort_perm [([] : Str)] lexLe
    rwa [List.perm_singleton] at hperm
  refine ⟨hone, ?_⟩
  rw [hone]
  decide

/-- Claim C8 (amended): the category listing is duplicate-free, sorted by the
lexicographic order on code points, and contains exactly the displayed
categories of the records, where the sentinel is substituted only for a
missing or empty category and the result is then trimmed. -/
theorem C8_amended (proverbs : List Proverb) :
    (categories_from proverbs).Nodup ∧
    List.Pairwise (fun a b => lexLe a b = true) (categories_from proverbs) ∧
    ∀ x : Str, x ∈ categories_from proverbs ↔
      x ∈ proverbs.map (fun p => stripStr (pyOr (p.category.getD []) uncategorized)) := by
  unfold categories_from
  have hperm := List.mergeSort_perm ((proverbs.map catOf).dedup) lexLe
  refine ⟨?_, ?_, ?_⟩
  · exact hperm.nodup_iff.mpr (List.nodup_dedup _)
  · exact List.sorted_mergeSort lexLe_trans lexLe_total _
  · intro x
    rw [hperm.mem_iff, List.mem_dedup]
    exact Iff.rfl

/-- Claim C9 (confirmed): saving an edit is rejected as a duplicate exactly
when the trimmed-lowercased edited text equals the duplicate key of some
record with a different identifier; under the uniqueness invariant an edit
that keeps the selected record's own text unchanged therefore passes the
duplicate check and is persisted, because the edited record itself is
excluded from the comparison set. -/
theorem C9_edit_self_exclusion (proverbs : List Proverb) (selected : Proverb)
    (t m tr c : Str) :
    (saveChanges proverbs selected t m tr c = .error .duplicate ↔
      lowerStr (stripStr t) ∈
        (proverbs.filter (fun p => decide (p.id ≠ selected.id))).map normKey) ∧
    ((proverbs.map normKey).Nodup → selected ∈ proverbs →
      t = selected.text.getD [] →
      saveChanges proverbs selected t m tr c =
        .ok (proverbs.map (fun p =>
          if p.id = selected.id then mkDoc selected.id t m tr c else p))) := by
  constructor
  · unfold saveChanges
    by_cases h : lowerStr (stripStr t) ∈
        (proverbs.filter (fun p => decide (p.id ≠ selected.id))).map normKey
    · rw [if_pos h]
      exact ⟨fun _ => h, fun _ => rfl⟩
    · rw [if_neg h]
      exact ⟨fun hc => Except.noConfusion hc, fun hc => absurd hc h⟩
  · intro hnodup hsel ht
    have hnotin : lowerStr (stripStr t) ∉
        (proverbs.filter (fun p => decide (p.id ≠ selected.id))).map normKey := by
      subst ht
      intro hmem
      rw [List.mem_map] at hmem
      obtain ⟨q, hq, hqk⟩ := hmem
      rw [List.mem_filter] at hq
      obtain ⟨hq1, hq2⟩ := hq
      rw [decide_eq_true_eq] at hq2
      have heq : q = selected :=
        List.inj_on_of_nodup_map hnodup hq1 hsel hqk
      exact hq2 (by rw [heq])
    unfold saveChanges
    rw [if_neg hnotin]

theorem C9_witness :
    saveChanges storeB recB0 ("a".toList) ("m2".toList) [] [] =
      .ok (storeB.map (fun p =>
        if p.id = recB0.id then mkDoc recB0.id ("a".toList) ("m2".toList) [] [] else p)) :=
  (C9_edit_self_exclusion storeB recB0 ("a".toList) ("m2".toList) [] []).2
    (by decide) (by decide) (by decide)

/-- Claim C10 (confirmed): the importer skips a candidate whose text field is
missing or null before reading any other field; building the data record
raises when meaning, translation or category is present as null, because only
text is read with the null-tolerant fallback, and it succeeds whenever none of
those fields is null. -/
theorem C10_null_fields (existing : List Str) (p : JCand) (ps : List JCand)
    (q : JCand) :
    ((p.text = none ∨ p.text = some JVal.null) →
      runImportJ existing (p :: ps) = runImportJ existing ps) ∧
    ((q.meaning = some JVal.null ∨ q.translation = some JVal.null ∨
        q.category = some JVal.null) → jMkData q = .error ()) ∧
    ((q.meaning ≠ some JVal.null ∧ q.translation ≠ some JVal.null ∧
        q.category ≠ some JVal.null) → (jMkData q).isOk = true) := by
  refine ⟨?_, ?_, ?_⟩
  · intro h
    have htext : jTextRead p.text = [] := by
      rcases h with h | h <;> rw [h] <;> rfl
    simp [runImportJ, htext, show stripStr ([] : Str) = [] from rfl]
  · intro h
    rcases h with h | h | h
    · have hjm : jGetStrip q.meaning = .error () := by rw [h]; rfl
      simp [jMkData, hjm]
    · cases hjm : jGetStrip q.meaning with
      | error e => cases e; simp [jMkData, hjm]
      | ok sm =>
        have hjt : jGetStrip q.translation = .error () := by rw [h]; rfl
        simp [jMkData, hjm, hjt]
    · cases hjm : jGetStrip q.meaning with
      | error e => cases e; simp [jMkData, hjm]
      | ok sm =>
        cases hjt : jGetStrip q.translation with
        | error e => cases e; simp [jMkData, hjm, hjt]
        | ok st =>
          have hjc : jGetStrip q.category = .error () := by rw [h]; rfl
          simp [jMkData, hjm, hjt, hjc]
  · intro h
    obtain ⟨h1, h2, h3⟩ := h
    rw [jMkData, jGetStrip_ok _ h1, jGetStrip_ok _ h2, jGetStrip_ok _ h3]
    rfl

theorem C10_null_fields_witness :
    runImportJ [] [⟨some JVal.null, some JVal.null, none, none⟩] = runImportJ [] [] ∧
      jMkData ⟨some (JVal.str ("x".toList)), some JVal.null, none, none⟩ = .error () ∧
      (jMkData ⟨none, none, none, none⟩).isOk = true :=
  ⟨(C10_null_fields [] ⟨some JVal.null, some JVal.null, none, none⟩ []
      ⟨none, none, none, none⟩).1 (Or.inr rfl),
   (C10_null_fields [] ⟨none, none, none, none⟩ []
      ⟨some (JVal.str ("x".toList)), some JVal.null, none, none⟩).2.1 (Or.inl rfl),
   (C10_null_fields [] ⟨none, none, none, none⟩ []
      ⟨none, none, none, none⟩).2.2 ⟨by decide, by decide, by decide⟩⟩

/-- Claim C1 (corrected, counterexample): one bulk import of a batch holding
two candidates whose texts differ only in case, applied to the empty store
(which trivially has no two records sharing a trimmed-lowercased text),
leaves the store with two records sharing the same trimmed-lowercased
text. -/
theorem C1_counterexample :
    StoreOk ([] : List Proverb) ∧
      ¬ ((applyOps [] [Op.bulkImport impBatchDup]).map normKey).Nodup := by
  constructor
  · exact ⟨List.Pairwise.nil, List.Pairwise.nil⟩
  · decide

/-- Claim C1 (amended): starting from a well-formed store (distinct
identifiers and no two records sharing a trimmed-lowercased text), every
sequence of admin adds, admin edits and bulk imports whose batches contain no
within-batch duplicate keys preserves both properties.  The admin paths
compare the candidate key against the current records and refuse on a match;
the bulk importer compares only against the pre-import snapshot, which is why
batches must be assumed free of within-batch duplicates. -/
theorem C1_amended : ∀ (ops : List Op) (s : List Proverb), StoreOk s →
    (∀ op ∈ ops, OpOk op) → StoreOk (applyOps s ops) := by
  intro ops
  induction ops with
  | nil => intro s hs _; exact hs
  | cons op ops ih =>
    intro s hs hops
    show StoreOk (applyOps (applyOp s op) ops)
    exact ih (applyOp s op)
      (storeOk_applyOp s op hs (hops op (List.mem_cons_self op ops)))
      (fun o ho => hops o (List.mem_cons_of_mem op ho))

theorem C1_amended_witness : StoreOk (applyOps [] sampleOps) :=
  C1_amended sampleOps [] ⟨List.Pairwise.nil, List.Pairwise.nil⟩ (by
    intro op hop
    simp only [sampleOps, List.mem_cons, List.not_mem_nil, or_false] at hop
    rcases hop with h | h | h
    · subst h; exact trivial
    · subst h; exact trivial
    · subst h
      show BatchOk goodBatch
      decide)
